import Mathlib

/-!
Verification of the Cal_Sync change-detection and reconciliation engine.

This file gives a shallow embedding, in Lean 4, of the pure core of the
repository (cal_sync.py, icloud_integration.py, mac_eventkit_bridge.py):

* Python strings are modelled as lists of characters (a Python `str` is a
  sequence of code points); string literals enter the model via `String.data`.
* Python dicts used as ordered maps (the sync-state `events` dict) are
  modelled as association lists in insertion order; the uniqueness of dict
  keys appears as a `Nodup` hypothesis where a theorem needs it.
* Python `datetime` values are modelled by a record of (ordinal day, hour,
  minute, second, microsecond); `timedelta(hours=1)` becomes explicit carry
  arithmetic on that record.
* Fallible destination calls (`create_event`, `delete_event_by_sync_uid`,
  `delete_event_by_summary`) are modelled as boolean-valued oracles carried
  by a `Client` record; the calls a run makes are collected in a log so that
  "no destination mutation was attempted" is expressible.

Every definition follows the corresponding Python function; comments name
the source function each definition embeds.
-/

/-- A Python string, modelled as its list of characters. -/
abbrev PyStr := List Char

/-! ## Time model and `_normalize_minutes_global` (cal_sync.py) -/

/-- Model of a Python naive `datetime`: `day` is an ordinal day count (so
that day arithmetic such as `+ timedelta(hours=1)` over midnight is a plain
successor), and `hour`, `minute`, `second`, `microsecond` are the usual
fields. -/
structure PyDateTime where
  day : Nat
  hour : Nat
  minute : Nat
  second : Nat
  microsecond : Nat
deriving DecidableEq, Repr

/-- Model of `dt.replace(minute=0, second=0, microsecond=0) + timedelta(hours=1)`:
zero the sub-hour fields and add one hour, carrying into the day. -/
def addOneHourAtZero (dt : PyDateTime) : PyDateTime :=
  if dt.hour + 1 ≥ 24 then
    { day := dt.day + 1, hour := 0, minute := 0, second := 0, microsecond := 0 }
  else
    { day := dt.day, hour := dt.hour + 1, minute := 0, second := 0, microsecond := 0 }

/-- Embedding of `_normalize_minutes_global` (cal_sync.py): force the ones
digit of the minute to 0 or 5 and zero the seconds and microseconds,
carrying into the next hour via duration arithmetic when the rounded-up
minute reaches 60. -/
def normalizeMinutesGlobal (dt : PyDateTime) : PyDateTime :=
  let currentMinute := dt.minute
  let minuteOnesDigit := currentMinute % 10
  if minuteOnesDigit ≤ 2 then
    { dt with minute := currentMinute / 10 * 10, second := 0, microsecond := 0 }
  else if minuteOnesDigit ≤ 7 then
    { dt with minute := currentMinute / 10 * 10 + 5, second := 0, microsecond := 0 }
  else
    let normalizedMinute := (currentMinute / 10 + 1) * 10
    if normalizedMinute ≥ 60 then
      addOneHourAtZero dt
    else
      { dt with minute := normalizedMinute, second := 0, microsecond := 0 }

/-- Spec-side description of minute rounding for a single datetime: ones
digit 0-2 rounds down to the enclosing multiple of 10, 3-7 to that multiple
plus 5, 8-9 up to the next multiple of 10 with carry into hour and day;
seconds and sub-seconds are always zeroed. -/
def NormalizeMinutesCases (dt : PyDateTime) : Prop :=
  (normalizeMinutesGlobal dt).second = 0 ∧
  (normalizeMinutesGlobal dt).microsecond = 0 ∧
  (dt.minute % 10 ≤ 2 →
    normalizeMinutesGlobal dt = ⟨dt.day, dt.hour, dt.minute - dt.minute % 10, 0, 0⟩) ∧
  (3 ≤ dt.minute % 10 → dt.minute % 10 ≤ 7 →
    normalizeMinutesGlobal dt = ⟨dt.day, dt.hour, dt.minute - dt.minute % 10 + 5, 0, 0⟩) ∧
  (8 ≤ dt.minute % 10 →
    (dt.minute < 50 →
      normalizeMinutesGlobal dt = ⟨dt.day, dt.hour, dt.minute - dt.minute % 10 + 10, 0, 0⟩) ∧
    (50 ≤ dt.minute →
      (dt.hour < 23 → normalizeMinutesGlobal dt = ⟨dt.day, dt.hour + 1, 0, 0, 0⟩) ∧
      (dt.hour = 23 → normalizeMinutesGlobal dt = ⟨dt.day + 1, 0, 0, 0, 0⟩)))

/-! ## Text normalization `_norm_text` and the sync marker (cal_sync.py,
mac_eventkit_bridge.py) -/

/-- Helper for the word splitter: walks the characters accumulating the
current word (reversed); a whitespace character flushes the word. This is
the semantics of Python `str.split()` with no separator argument. -/
def pyWordsAux (cur : PyStr) : PyStr → List PyStr
  | [] => if cur = [] then [] else [cur.reverse]
  | c :: t =>
    if c.isWhitespace then
      if cur = [] then pyWordsAux [] t else cur.reverse :: pyWordsAux [] t
    else
      pyWordsAux (c :: cur) t

/-- Python `s.split()`: the maximal non-whitespace runs of `s`. -/
def pyWords (s : PyStr) : List PyStr := pyWordsAux [] s

/-- Python `' '.join(ws)`. -/
def joinSpace : List PyStr → PyStr
  | [] => []
  | [w] => w
  | w :: rest => w ++ ' ' :: joinSpace rest

/-- Embedding of `_norm_text` (cal_sync.py): collapse all whitespace runs to
single spaces and strip the ends (the initial `strip()` in the source is
absorbed by `split()`, which already discards boundary whitespace). -/
def normText (s : PyStr) : PyStr := joinSpace (pyWords s)

/-- Python substring test `pat in s`: `pat` occurs contiguously in `s`
(the empty pattern occurs in every string). -/
def strContains : PyStr → PyStr → Bool
  | [], pat => pat.isPrefixOf []
  | c :: t, pat => pat.isPrefixOf (c :: t) || strContains t pat

/-- The marker text `[SYNC_UID:<stable_key>]`. -/
def syncMarkerCore (stableKey : PyStr) : PyStr :=
  "[SYNC_UID:".data ++ stableKey ++ "]".data

/-- Embedding of the description-marker step shared by `parse_ical_event`
(cal_sync.py) and `_convert_eventkit_event_to_dict`
(mac_eventkit_bridge.py): normalize the description; if non-empty, append
a space plus the marker unless the marker (with its leading space) already
occurs; if empty, the description becomes the bare marker. -/
def appendSyncMarker (stableKey : PyStr) (rawDescription : PyStr) : PyStr :=
  let description := normText rawDescription
  if description ≠ [] then
    let syncMarker := ' ' :: syncMarkerCore stableKey
    if strContains description syncMarker then description
    else description ++ syncMarker
  else
    syncMarkerCore stableKey

/-! ## `_norm_rrule`, `_to_utc_iso` and `generate_event_hash` (cal_sync.py) -/

/-- Python `s.split(sep)` for a one-character separator: splits on every
occurrence and keeps empty pieces (so the empty string splits to one empty
piece). -/
def pySplitAux (sep : Char) (cur : PyStr) : PyStr → List PyStr
  | [] => [cur.reverse]
  | c :: t => if c = sep then cur.reverse :: pySplitAux sep [] t else pySplitAux sep (c :: cur) t

/-- Python `s.split(sep)` (single-character separator). -/
def pySplit (sep : Char) (s : PyStr) : List PyStr := pySplitAux sep [] s

/-- Python `s.strip()`: drop whitespace from both ends. -/
def pyStrip (s : PyStr) : PyStr :=
  ((s.dropWhile Char.isWhitespace).reverse.dropWhile Char.isWhitespace).reverse

/-- Python `list.sort()` on strings: ascending lexicographic order on code
points (modelled by any correct stable sort; sortedness determines the
result uniquely). -/
def sortPyStrs (l : List PyStr) : List PyStr := List.insertionSort (· ≤ ·) l

/-- The components `_norm_rrule` works on: split the serialized rrule on
';', strip each piece, drop the empty ones. -/
def rruleComps (raw : PyStr) : List PyStr :=
  ((pySplit ';' raw).map pyStrip).filter (· ≠ [])

/-- Embedding of `_norm_rrule` (cal_sync.py), on the serialized rrule text:
a falsy (empty) rrule yields the empty string; otherwise the stripped
non-empty ';'-components are sorted and rejoined with ';'. -/
def normRrule (raw : PyStr) : PyStr :=
  if raw = [] then [] else List.intercalate [';'] (sortPyStrs (rruleComps raw))

/-- The value `_to_utc_iso` (cal_sync.py) is applied to: `None`, a pure
date, or a datetime. The serialized payloads (a date's `isoformat()` and a
datetime's UTC `isoformat()`) are carried as abstract strings; the model
reproduces the branch structure, in particular the `|ALLDAY` tag appended
to pure dates. -/
inductive PyTimeField where
  | noneVal : PyTimeField
  | dateVal (isoDate : PyStr) : PyTimeField
  | datetimeVal (utcIso : PyStr) : PyTimeField
deriving DecidableEq, Repr

/-- Embedding of `_to_utc_iso` (cal_sync.py). -/
def toUtcIso : PyTimeField → PyStr
  | .noneVal => []
  | .dateVal d => d ++ "|ALLDAY".data
  | .datetimeVal s => s

/-- A parsed event as hashed by `generate_event_hash`: the semantic fields
plus the `created` / `last_modified` metadata fields that the hash must
ignore. In the parsing pipeline (`parse_ical_event`) the `rrule` field
already holds the `_norm_rrule` output and `exdate` the `_norm_exdate`
output. -/
structure HashEvent where
  uid : PyStr
  stable_key : PyStr
  summary : PyStr
  description : PyStr
  location : PyStr
  rrule : PyStr
  exdate : PyStr
  start : PyTimeField
  end_ : PyTimeField
  recurrence_id : Option PyStr
  created : PyStr
  last_modified : PyStr
deriving DecidableEq, Repr

/-- The field list `generate_event_hash` (cal_sync.py) joins: stable key
(the dict always carries one in the pipeline, so the `uid` fallback of
`event.get` is not taken), re-normalized summary / description / location,
the already-normalized rrule and exdate, the UTC-ISO start and end, and the
recurrence id when truthy (present and non-empty). -/
def hashFields (e : HashEvent) : List PyStr :=
  [e.stable_key, normText e.summary, normText e.description, normText e.location,
    e.rrule, e.exdate] ++
  [toUtcIso e.start, toUtcIso e.end_] ++
  (match e.recurrence_id with
   | some r => if r ≠ [] then [r] else []
   | none => [])

/-- The string `generate_event_hash` digests: the fields joined with the
two-character separator `||`. -/
def generateEventHashString (e : HashEvent) : PyStr :=
  List.intercalate "||".data (hashFields e)

/-- Embedding of `generate_event_hash` (cal_sync.py): the MD5 digest, an
arbitrary deterministic function `md5` of the joined field string. -/
def generateEventHash (md5 : PyStr → PyStr) (e : HashEvent) : PyStr :=
  md5 (generateEventHashString e)

/-! ## Events, sync-state entries, `detect_changes` and the aggregation
deduplication (cal_sync.py) -/

/-- The slice of a parsed source-event dict that `detect_changes`,
`get_source_events` deduplication and `sync_to_icloud` read: uid, stable
key, summary and content hash. -/
structure SEvent where
  uid : PyStr
  stable_key : PyStr
  summary : PyStr
  hash : PyStr
deriving DecidableEq, Repr

/-- A sync-state `events` entry as written by `sync_to_icloud` /
`force_resync`: `{uid, summary, hash, last_sync}`. -/
structure StEntry where
  uid : PyStr
  summary : PyStr
  hash : PyStr
  last_sync : PyStr
deriving DecidableEq, Repr

/-- The minimal record `detect_changes` emits for a deleted event:
`{uid, stable_key, summary}`. -/
structure DeletedRec where
  uid : PyStr
  stable_key : PyStr
  summary : PyStr
deriving DecidableEq, Repr

instance : Inhabited SEvent := ⟨⟨[], [], [], []⟩⟩

instance : Inhabited StEntry := ⟨⟨[], [], [], []⟩⟩

instance : Inhabited DeletedRec := ⟨⟨[], [], []⟩⟩

/-- The sync-state `events` dict: an insertion-ordered association list
from stable key to entry (Python dicts preserve insertion order; key
uniqueness is a `Nodup` hypothesis where needed). -/
abbrev StateEvents := List (PyStr × StEntry)

/-- Python `self.sync_state["events"].get(stable_key)`: first entry with
the key. -/
def stLookup (st : StateEvents) (k : PyStr) : Option StEntry :=
  (st.find? (fun p => p.1 == k)).map (·.2)

/-- Embedding of `CalSync.detect_changes` (cal_sync.py): `added` are the
current events whose stable key is not a synced key; `deleted` is one
`{uid, stable_key, summary}` record (fields pulled from the state entry)
for each synced key absent from the current key set, in state order
(Python iterates a set here, so only the set of records is significant);
`modified` are the current events whose key is synced but whose hash
differs from the stored hash. Returned as `(added, modified, deleted)`. -/
def detectChanges (current : List SEvent) (st : StateEvents) :
    List SEvent × List SEvent × List DeletedRec :=
  let currentKeys := current.map (·.stable_key)
  let syncedKeys := st.map (·.1)
  let added := current.filter (fun e => !syncedKeys.contains e.stable_key)
  let deleted := (st.filter (fun p => !currentKeys.contains p.1)).map
    (fun p => { uid := p.2.uid, stable_key := p.1, summary := p.2.summary })
  let modified := current.filter (fun e =>
    syncedKeys.contains e.stable_key &&
      match stLookup st e.stable_key with
      | some ent => ent.hash != e.hash
      | none => false)
  (added, modified, deleted)

/-- Helper for the aggregation deduplication: `seen` is the key set of the
`unique_events` dict built so far. -/
def dedupEventsAux (seen : List PyStr) : List SEvent → List SEvent
  | [] => []
  | e :: rest =>
    if !e.stable_key.isEmpty && !seen.contains e.stable_key then
      e :: dedupEventsAux (e.stable_key :: seen) rest
    else
      dedupEventsAux seen rest

/-- Embedding of the deduplication step of `CalSync.get_source_events`
(cal_sync.py): walk the combined event list, keeping an event only when its
stable key is truthy (non-empty) and not seen before; the kept events come
out in first-occurrence order, exactly as `list(unique_events.values())`
does for an insertion-ordered dict. -/
def dedupEvents (events : List SEvent) : List SEvent := dedupEventsAux [] events

/-- Spec-side characterization of `detect_changes` for C1, phrased through
`stLookup` membership rather than the filters of the code. -/
def DetectChangesSpec (current : List SEvent) (st : StateEvents) : Prop :=
  (∀ e, e ∈ (detectChanges current st).1 ↔
    e ∈ current ∧ stLookup st e.stable_key = none) ∧
  (∀ e, e ∈ (detectChanges current st).2.1 ↔
    e ∈ current ∧ ∃ ent, stLookup st e.stable_key = some ent ∧ ent.hash ≠ e.hash) ∧
  (∀ k, (k ∈ st.map Prod.fst ∧ k ∉ current.map SEvent.stable_key) ↔
    ∃ r ∈ (detectChanges current st).2.2, r.stable_key = k) ∧
  (∀ r ∈ (detectChanges current st).2.2,
    ∃ ent, stLookup st r.stable_key = some ent ∧ r.uid = ent.uid ∧ r.summary = ent.summary) ∧
  (∀ k, (detectChanges current st).2.2.countP (fun r => r.stable_key == k) ≤ 1) ∧
  (∀ e ∈ current, ∀ ent, stLookup st e.stable_key = some ent → ent.hash = e.hash →
    e ∉ (detectChanges current st).1 ∧ e ∉ (detectChanges current st).2.1 ∧
    ∀ r ∈ (detectChanges current st).2.2, r.stable_key ≠ e.stable_key)

/-- Spec-side characterization of the aggregation deduplication for C6:
for every non-empty stable key, the kept events with that key are exactly
the first event of the input carrying it. -/
def DedupSpec (events : List SEvent) : Prop :=
  ∀ k : PyStr, k ≠ [] →
    (dedupEvents events).filter (fun e => e.stable_key == k) =
      (events.find? (fun e => e.stable_key == k)).toList

/-! ## `sync_to_icloud` (cal_sync.py) and the ICloudIntegration surface
(icloud_integration.py) -/

/-- A destination call attempted by `sync_to_icloud`: create an event,
delete by the exact sync marker, or delete by summary (title). -/
inductive DestCall where
  | createEv (stableKey : PyStr)
  | deleteByUid (stableKey : PyStr)
  | deleteBySummary (summary : PyStr)
deriving DecidableEq, Repr

/-- The destination client as `sync_to_icloud` sees it: its attribute
names (for the `hasattr` precheck) and boolean-valued oracles giving the
outcome of each destination call. -/
structure Client where
  attrs : List PyStr
  create_event : SEvent → Bool
  delete_event_by_sync_uid : PyStr → Bool
  delete_event_by_summary : PyStr → Bool

/-- The `required_methods` tuple checked at the top of
`CalSync.sync_to_icloud` (cal_sync.py line 1043). -/
def requiredSyncMethods : List PyStr :=
  ["create_event".data, "delete_event_by_summary".data,
   "delete_event_by_sync_uid".data, "get_existing_events".data]

/-- `[m for m in required_methods if not hasattr(self.icloud_client, m)]`. -/
def missingMethods (attrs : List PyStr) : List PyStr :=
  requiredSyncMethods.filter (fun m => !attrs.contains m)

/-- Every attribute an `ICloudIntegration` instance
(icloud_integration.py) has: the methods defined in the class body plus
the instance attributes assigned in `__init__`. -/
def icloudIntegrationAttrs : List PyStr :=
  ["__init__".data, "_ensure_applescript_dir".data, "_run_applescript".data,
   "create_calendar".data, "check_calendar_accessibility".data, "create_event".data,
   "update_event".data, "delete_event".data, "delete_event_by_summary".data,
   "get_existing_events".data, "clear_all_events".data, "_format_date".data,
   "_format_date_for_applescript".data, "_ensure_end_date".data,
   "_normalize_minutes".data, "_escape_string".data, "sync_events".data,
   "calendar_name".data, "app_password".data, "logger".data, "applescript_dir".data]

/-- Python `self.sync_state["events"][k] = v`: update in place when the
key exists (keeping its position), else append. -/
def stInsert (st : StateEvents) (k : PyStr) (v : StEntry) : StateEvents :=
  if st.any (fun p => p.1 == k) then st.map (fun p => if p.1 == k then (k, v) else p)
  else st ++ [(k, v)]

/-- Python `if k in events: del events[k]`. -/
def stErase (st : StateEvents) (k : PyStr) : StateEvents :=
  st.filter (fun p => !(p.1 == k))

/-- Python `if k in events: events[k]["last_sync"] = now`. -/
def stUpdateLastSync (st : StateEvents) (k : PyStr) (now : PyStr) : StateEvents :=
  st.map (fun p => if p.1 == k then (p.1, { p.2 with last_sync := now }) else p)

/-- Accumulator of the `sync_to_icloud` loops: the `events` dict, the
destination calls made so far, and `success_count`. -/
structure SyncAcc where
  events : StateEvents
  calls : List DestCall
  successCount : Nat
deriving Repr

/-- The added-events loop body of `sync_to_icloud`: create the event; on
success record the full state entry (uid, summary, hash, now). -/
def processAdded (cl : Client) (now : PyStr) (acc : SyncAcc) (e : SEvent) : SyncAcc :=
  if cl.create_event e then
    { events := stInsert acc.events e.stable_key ⟨e.uid, e.summary, e.hash, now⟩,
      calls := acc.calls ++ [.createEv e.stable_key],
      successCount := acc.successCount + 1 }
  else
    { acc with calls := acc.calls ++ [.createEv e.stable_key] }

/-- The modified-events loop body: delete the old copy (marker-based
first, title-based fallback; the delete outcome only affects logging),
then create the new version; the state entry is rewritten only when the
create succeeded. -/
def processModified (cl : Client) (now : PyStr) (acc : SyncAcc) (e : SEvent) : SyncAcc :=
  let deleteSuccess := cl.delete_event_by_sync_uid e.stable_key
  let calls1 := acc.calls ++ [.deleteByUid e.stable_key]
  let calls2 := if deleteSuccess then calls1 else calls1 ++ [.deleteBySummary e.summary]
  if cl.create_event e then
    { events := stInsert acc.events e.stable_key ⟨e.uid, e.summary, e.hash, now⟩,
      calls := calls2 ++ [.createEv e.stable_key],
      successCount := acc.successCount + 1 }
  else
    { acc with calls := calls2 ++ [.createEv e.stable_key] }

/-- The deleted-events loop body: marker-based delete, then title-based
fallback; the state entry is removed only when one of the two delete calls
returned true. -/
def processDeleted (cl : Client) (acc : SyncAcc) (d : DeletedRec) : SyncAcc :=
  if cl.delete_event_by_sync_uid d.stable_key then
    { events := stErase acc.events d.stable_key,
      calls := acc.calls ++ [.deleteByUid d.stable_key],
      successCount := acc.successCount + 1 }
  else if cl.delete_event_by_summary d.summary then
    { events := stErase acc.events d.stable_key,
      calls := acc.calls ++ [.deleteByUid d.stable_key, .deleteBySummary d.summary],
      successCount := acc.successCount + 1 }
  else
    { acc with calls := acc.calls ++ [.deleteByUid d.stable_key, .deleteBySummary d.summary] }

/-- The recovery loop body: recreate the event; on success refresh only
the `last_sync` field of the existing state entry. -/
def processRecovery (cl : Client) (now : PyStr) (acc : SyncAcc) (e : SEvent) : SyncAcc :=
  if cl.create_event e then
    { events := stUpdateLastSync acc.events e.stable_key now,
      calls := acc.calls ++ [.createEv e.stable_key],
      successCount := acc.successCount + 1 }
  else
    { acc with calls := acc.calls ++ [.createEv e.stable_key] }

/-- The whole sync state `{last_sync, events}`. -/
structure SyncState where
  last_sync : Option PyStr
  events : StateEvents
deriving Repr

/-- Embedding of `CalSync.sync_to_icloud` (cal_sync.py): the `hasattr`
precheck returns False before anything else when a required method is
missing; an empty batch returns True untouched; otherwise the four loops
run in order (added, modified, deleted, recovery), the top-level
`last_sync` is stamped, and the result is `success_count > 0`. Returns
(result, new state, destination calls made). -/
def syncToIcloud (cl : Client) (now : PyStr) (addedEvents modifiedEvents : List SEvent)
    (deletedEvents : List DeletedRec) (recoveryEvents : List SEvent)
    (st : SyncState) : Bool × SyncState × List DestCall :=
  if missingMethods cl.attrs ≠ [] then (false, st, [])
  else if addedEvents.length + modifiedEvents.length + deletedEvents.length +
      recoveryEvents.length = 0 then (true, st, [])
  else
    let acc0 : SyncAcc := ⟨st.events, [], 0⟩
    let acc1 := addedEvents.foldl (processAdded cl now) acc0
    let acc2 := modifiedEvents.foldl (processModified cl now) acc1
    let acc3 := deletedEvents.foldl (processDeleted cl) acc2
    let acc4 := recoveryEvents.foldl (processRecovery cl now) acc3
    (decide (0 < acc4.successCount), ⟨some now, acc4.events⟩, acc4.calls)

/-! ## `detect_icloud_deletions` and the skip decision of `sync_calendars`
(cal_sync.py) -/

/-- The value `detect_icloud_deletions` returns: a recovery list, or one
of the two string sentinels `TIMEOUT` / `TOO_MANY_MISSING`. -/
inductive DeletionDetectResult where
  | found (events : List SEvent)
  | timeoutSentinel
  | tooManyMissing
deriving DecidableEq, Repr

/-- The `missing_in_icloud` list of `detect_icloud_deletions`: for each
stable key that is both a synced key and a current source key but not
among the markers extracted from the destination, the (first) current
source event with that key. `icloudKeys` is the extracted marker key set
(Python iterates `synced_keys & caldav_keys`, an unordered set; the model
fixes state order, and the theorems only use sizes and membership). -/
def missingInICloud (icloudKeys : List PyStr) (caldavEvents : List SEvent)
    (st : StateEvents) : List SEvent :=
  ((st.map Prod.fst).filter
      (fun k => (caldavEvents.map (·.stable_key)).contains k &&
        !icloudKeys.contains k)).filterMap
    (fun k => caldavEvents.find? (fun e => e.stable_key == k))

/-- Embedding of the decision logic of `CalSync.detect_icloud_deletions`
(cal_sync.py), on the successfully-listed path (the `TIMEOUT` and
inaccessible-calendar branches concern the client call itself): when the
missing list is non-empty and `len(missing) > 0.5 * total` — which for
integer counts is exactly `2 * len(missing) > total` — the
`TOO_MANY_MISSING` sentinel is returned iff the skip option (default
true) is on; otherwise the missing list is returned. -/
def detectICloudDeletions (skipOnTooManyMissing : Bool) (icloudKeys : List PyStr)
    (caldavEvents : List SEvent) (st : StateEvents) : DeletionDetectResult :=
  let missing := missingInICloud icloudKeys caldavEvents st
  if missing.length ≠ 0 ∧ 2 * missing.length > caldavEvents.length then
    if skipOnTooManyMissing then .tooManyMissing else .found missing
  else .found missing

/-- Embedding of the reconciliation slice of `CalSync.sync_calendars`
(cal_sync.py): an empty source list returns success before any detection;
otherwise detect changes, run manual-deletion detection when the override
option is on, return success immediately on either sentinel (skipping
`sync_to_icloud` entirely), and otherwise hand the four sets to
`sync_to_icloud` when there is any change. Returns (result, state,
destination calls made). -/
def syncCalendarsDispatch (cl : Client) (now : PyStr)
    (overrideICloudDeletions skipOnTooManyMissing : Bool) (icloudKeys : List PyStr)
    (current : List SEvent) (st : SyncState) : Bool × SyncState × List DestCall :=
  if current.isEmpty then (true, st, []) else
  let changes := detectChanges current st.events
  let res := if overrideICloudDeletions then
      detectICloudDeletions skipOnTooManyMissing icloudKeys current st.events
    else .found []
  match res with
  | .timeoutSentinel => (true, st, [])
  | .tooManyMissing => (true, st, [])
  | .found recovery =>
    if changes.1.length + changes.2.1.length + changes.2.2.length + recovery.length > 0 then
      syncToIcloud cl now changes.1 changes.2.1 changes.2.2 recovery st
    else (true, st, [])

/-! ## `load_sync_state` (cal_sync.py) -/

/-- A persisted sync-state entry as found on disk: every field optional,
since the legacy format carried only `hash` and `last_sync` (no
`summary`). -/
structure RawEntry where
  uid : Option PyStr
  summary : Option PyStr
  hash : Option PyStr
  last_sync : Option PyStr
deriving DecidableEq, Repr

/-- The legacy-format check of `CalSync.load_sync_state` (cal_sync.py):
when the events map is non-empty, the FIRST entry (in insertion order,
`next(iter(state["events"]))`) is probed; if it has no "summary" field the
whole events map is cleared, otherwise the map is returned untouched. -/
def migrateLegacyEvents : List (PyStr × RawEntry) → List (PyStr × RawEntry)
  | [] => []
  | (k, e) :: rest => if e.summary.isNone then [] else (k, e) :: rest

/-- A persisted sync state `{last_sync, events}` in the on-disk shape. -/
structure RawSyncState where
  last_sync : Option PyStr
  events : List (PyStr × RawEntry)
deriving DecidableEq, Repr

/-- Embedding of `CalSync.load_sync_state` (cal_sync.py) after JSON
parsing: no file yields the fresh `{last_sync: None, events: {}}` state; a
parsed file is returned with the legacy-format events check applied. No
failure path exists. -/
def loadSyncState : Option RawSyncState → RawSyncState
  | none => ⟨none, []⟩
  | some st => { st with events := migrateLegacyEvents st.events }

/-- A persisted events map whose first entry is modern (has "summary") but
whose second entry is legacy (lacks it). -/
def legacyMixedEvents : List (PyStr × RawEntry) :=
  [("k1".data, ⟨some "u1".data, some "Standup".data, some "h1".data, some "t1".data⟩),
   ("k2".data, ⟨some "u2".data, none, some "h2".data, some "t2".data⟩)]

/-- A fully legacy persisted events map: entries carry only hash and
last_sync. -/
def legacyOldEvents : List (PyStr × RawEntry) :=
  [("k1".data, ⟨none, none, some "h1".data, some "t1".data⟩),
   ("k2".data, ⟨none, none, some "h2".data, some "t2".data⟩)]

/-- A fully modern persisted events map: every entry carries "summary". -/
def modernEvents : List (PyStr × RawEntry) :=
  [("k1".data, ⟨some "u1".data, some "Standup".data, some "h1".data, some "t1".data⟩),
   ("k2".data, ⟨some "u2".data, some "Review".data, some "h2".data, some "t2".data⟩)]

/-- Ten current source events with keys k1..k10 (the C3 scenario). -/
def caldavTen : List SEvent :=
  [⟨"u1".data, "k1".data, "Event 1".data, "h1".data⟩,
   ⟨"u2".data, "k2".data, "Event 2".data, "h2".data⟩,
   ⟨"u3".data, "k3".data, "Event 3".data, "h3".data⟩,
   ⟨"u4".data, "k4".data, "Event 4".data, "h4".data⟩,
   ⟨"u5".data, "k5".data, "Event 5".data, "h5".data⟩,
   ⟨"u6".data, "k6".data, "Event 6".data, "h6".data⟩,
   ⟨"u7".data, "k7".data, "Event 7".data, "h7".data⟩,
   ⟨"u8".data, "k8".data, "Event 8".data, "h8".data⟩,
   ⟨"u9".data, "k9".data, "Event 9".data, "h9".data⟩,
   ⟨"u10".data, "k10".data, "Event 10".data, "h10".data⟩]

/-- A prior sync state holding all ten scenario events. -/
def stateTen : StateEvents :=
  caldavTen.map (fun e => (e.stable_key, ⟨e.uid, e.summary, e.hash, "t0".data⟩))

/-- Destination markers covering only k1, k2, k3 of the ten scenario
events. -/
def icloudThreeKeys : List PyStr := ["k1".data, "k2".data, "k3".data]

/-- C4: minute rounding by ones digit (0-2 down, 3-7 to 5, 8-9 up with
hour/day carry, seconds and sub-seconds zeroed), together with the concrete
instances minute 29 ↦ 30, minute 44 ↦ 45, and 23:58 ↦ 00:00 of the next
day. -/
theorem normalize_minutes_global_spec :
    (∀ dt : PyDateTime, dt.minute < 60 → dt.hour < 24 → NormalizeMinutesCases dt) ∧
    normalizeMinutesGlobal ⟨0, 9, 29, 17, 250⟩ = ⟨0, 9, 30, 0, 0⟩ ∧
    normalizeMinutesGlobal ⟨0, 9, 44, 0, 0⟩ = ⟨0, 9, 45, 0, 0⟩ ∧
    normalizeMinutesGlobal ⟨41, 23, 58, 59, 999999⟩ = ⟨42, 0, 0, 0, 0⟩ := by
  refine ⟨?_, by decide, by decide, by decide⟩
  intro dt hmin hhour
  by_cases h2 : dt.minute % 10 ≤ 2
  · have he : normalizeMinutesGlobal dt =
        { dt with minute := dt.minute / 10 * 10, second := 0, microsecond := 0 } := by
      simp [normalizeMinutesGlobal, h2]
    refine ⟨by rw [he], by rw [he], fun _ => ?_, fun h3 _ => by omega, fun h8 => by omega⟩
    rw [he]
    simp only [PyDateTime.mk.injEq, and_true, true_and]
    omega
  · by_cases h7 : dt.minute % 10 ≤ 7
    · have he : normalizeMinutesGlobal dt =
          { dt with minute := dt.minute / 10 * 10 + 5, second := 0, microsecond := 0 } := by
        simp [normalizeMinutesGlobal, h2, h7]
      refine ⟨by rw [he], by rw [he], fun hc => by omega, fun _ _ => ?_, fun h8 => by omega⟩
      rw [he]
      simp only [PyDateTime.mk.injEq, and_true, true_and]
      omega
    · by_cases hcarry : dt.minute < 50
      · have he : normalizeMinutesGlobal dt =
            { dt with minute := (dt.minute / 10 + 1) * 10, second := 0, microsecond := 0 } := by
          have : ¬ (dt.minute / 10 + 1) * 10 ≥ 60 := by omega
          simp [normalizeMinutesGlobal, h2, h7, this]
        refine ⟨by rw [he], by rw [he], fun hc => by omega, fun _ hc => by omega, fun _ => ?_⟩
        refine ⟨fun _ => ?_, fun hge => by omega⟩
        rw [he]
        simp only [PyDateTime.mk.injEq, and_true, true_and]
        omega
      · have hge60 : (dt.minute / 10 + 1) * 10 ≥ 60 := by omega
        by_cases hh : dt.hour < 23
        · have he : normalizeMinutesGlobal dt =
              { day := dt.day, hour := dt.hour + 1, minute := 0, second := 0,
                microsecond := 0 } := by
            have h24 : ¬ dt.hour + 1 ≥ 24 := by omega
            simp [normalizeMinutesGlobal, addOneHourAtZero, h2, h7, hge60, h24]
          refine ⟨by rw [he], by rw [he], fun hc => by omega, fun _ hc => by omega, fun _ => ?_⟩
          exact ⟨fun hlt => by omega, fun _ => ⟨fun _ => he, fun h23 => by omega⟩⟩
        · have h23 : dt.hour = 23 := by omega
          have he : normalizeMinutesGlobal dt =
              { day := dt.day + 1, hour := 0, minute := 0, second := 0, microsecond := 0 } := by
            have h24 : dt.hour + 1 ≥ 24 := by omega
            simp [normalizeMinutesGlobal, addOneHourAtZero, h2, h7, hge60, h24]
          refine ⟨by rw [he], by rw [he], fun hc => by omega, fun _ hc => by omega, fun _ => ?_⟩
          exact ⟨fun hlt => by omega, fun _ => ⟨fun h => by omega, fun _ => he⟩⟩

/-- Witness for C4: the general case analysis applied at the concrete
datetime day 41, 23:58:59.999999. -/
theorem normalize_minutes_global_spec_witness :
    NormalizeMinutesCases ⟨41, 23, 58, 59, 999999⟩ :=
  normalize_minutes_global_spec.1 ⟨41, 23, 58, 59, 999999⟩ (by decide) (by decide)

/-! ## Lemmas about the word splitter and the sync marker -/

theorem pyWordsAux_all_words {cur : PyStr} (hcur : ∀ c ∈ cur, ¬ c.isWhitespace) :
    ∀ s : PyStr, ∀ w ∈ pyWordsAux cur s, w ≠ [] ∧ ∀ c ∈ w, ¬ c.isWhitespace := by
  intro s
  induction s generalizing cur with
  | nil =>
    intro w hw
    by_cases h : cur = []
    · simp [pyWordsAux, h] at hw
    · simp only [pyWordsAux, if_neg h, List.mem_singleton] at hw
      subst hw
      refine ⟨by simpa using h, ?_⟩
      intro c hc
      exact hcur c (List.mem_reverse.mp hc)
  | cons c t ih =>
    intro w hw
    by_cases hws : c.isWhitespace
    · by_cases h : cur = []
      · simp only [pyWordsAux, if_pos hws, if_pos h] at hw
        exact ih (by simp) w hw
      · simp only [pyWordsAux, if_pos hws, if_neg h, List.mem_cons] at hw
        rcases hw with hw | hw
        · subst hw
          refine ⟨by simpa using h, ?_⟩
          intro x hx
          exact hcur x (List.mem_reverse.mp hx)
        · exact ih (by simp) w hw
    · simp only [pyWordsAux, if_neg hws] at hw
      refine ih ?_ w hw
      intro x hx
      rcases List.mem_cons.mp hx with hx | hx
      · subst hx; exact hws
      · exact hcur x hx

theorem pyWordsAux_append_ws {c : Char} (hws : c.isWhitespace) (b : PyStr) :
    ∀ (a : PyStr) (cur : PyStr),
      pyWordsAux cur (a ++ c :: b) = pyWordsAux cur a ++ pyWordsAux [] b := by
  intro a
  induction a with
  | nil =>
    intro cur
    by_cases h : cur = []
    · simp [pyWordsAux, h, hws]
    · simp [pyWordsAux, h, hws]
  | cons x a' ih =>
    intro cur
    by_cases hx : x.isWhitespace
    · by_cases h : cur = []
      · simp only [List.cons_append, pyWordsAux, if_pos hx, if_pos h]
        exact ih []
      · simp only [List.cons_append, pyWordsAux, if_pos hx, if_neg h]
        exact congrArg (List.reverse cur :: ·) (ih [])
    · simp only [List.cons_append, pyWordsAux, if_neg hx]
      exact ih (x :: cur)

theorem pyWordsAux_word {w : PyStr} (hw : ∀ c ∈ w, ¬ c.isWhitespace) :
    ∀ cur : PyStr, pyWordsAux cur w =
      if cur = [] ∧ w = [] then [] else [cur.reverse ++ w] := by
  induction w with
  | nil =>
    intro cur
    by_cases h : cur = [] <;> simp [pyWordsAux, h]
  | cons c t ih =>
    intro cur
    have hc : ¬ c.isWhitespace := hw c (by simp)
    have ht : ∀ x ∈ t, ¬ x.isWhitespace := fun x hx => hw x (List.mem_cons_of_mem _ hx)
    simp only [pyWordsAux, if_neg hc]
    rw [ih ht (c :: cur)]
    simp

theorem pyWords_joinSpace :
    ∀ ws : List PyStr, (∀ w ∈ ws, w ≠ [] ∧ ∀ c ∈ w, ¬ c.isWhitespace) →
      pyWords (joinSpace ws) = ws := by
  intro ws
  induction ws with
  | nil => intro _; rfl
  | cons w rest ih =>
    intro hws
    have hw := hws w (by simp)
    cases rest with
    | nil =>
      show pyWordsAux [] (joinSpace [w]) = [w]
      rw [show joinSpace [w] = w from rfl, pyWordsAux_word hw.2]
      simp [hw.1]
    | cons w2 rest' =>
      show pyWordsAux [] (joinSpace (w :: w2 :: rest')) = w :: w2 :: rest'
      rw [show joinSpace (w :: w2 :: rest') = w ++ ' ' :: joinSpace (w2 :: rest') from rfl]
      rw [pyWordsAux_append_ws (by decide) _ w []]
      rw [pyWordsAux_word hw.2]
      simp only [hw.1, and_false, if_false, List.reverse_nil, List.nil_append]
      rw [show pyWordsAux [] (joinSpace (w2 :: rest')) = pyWords (joinSpace (w2 :: rest')) from rfl]
      rw [ih (fun x hx => hws x (List.mem_cons_of_mem _ hx))]
      rfl

theorem pyWords_normText (s : PyStr) : pyWords (normText s) = pyWords s :=
  pyWords_joinSpace (pyWords s) (pyWordsAux_all_words (by simp) s)

theorem normText_idem (s : PyStr) : normText (normText s) = normText s :=
  congrArg joinSpace (pyWords_normText s)

theorem joinSpace_append_singleton :
    ∀ (ws : List PyStr) (w : PyStr), ws ≠ [] →
      joinSpace (ws ++ [w]) = joinSpace ws ++ ' ' :: w := by
  intro ws
  induction ws with
  | nil => intro w h; exact absurd rfl h
  | cons x rest ih =>
    intro w _
    cases rest with
    | nil => rfl
    | cons y rest' =>
      show x ++ ' ' :: joinSpace ((y :: rest') ++ [w]) = (x ++ ' ' :: joinSpace (y :: rest')) ++ ' ' :: w
      rw [ih w (by simp)]
      simp

theorem strContains_append_self (b : PyStr) : ∀ a : PyStr, strContains (a ++ b) b = true := by
  intro a
  induction a with
  | nil =>
    cases b with
    | nil => rfl
    | cons c t =>
      show strContains (c :: t) (c :: t) = true
      simp [strContains, List.isPrefixOf_iff_prefix]
  | cons x a' ih =>
    show strContains (x :: (a' ++ b)) b = true
    simp only [strContains, ih, Bool.or_true]

/-- C7 counterexample: the marker-appending step is NOT idempotent on the
empty description. One application yields the bare marker with no leading
space; a second application looks for the marker with a leading space,
misses it, and appends it again. -/
theorem append_sync_marker_counterexample :
    appendSyncMarker "uid-1".data (appendSyncMarker "uid-1".data "".data) ≠
      appendSyncMarker "uid-1".data "".data := by decide

/-- C7 amended: for every description whose normalized text is non-empty and
every stable key containing no whitespace, the marker-appending step is
idempotent: applying it to its own output returns that output unchanged. -/
theorem append_sync_marker_idem (s k : PyStr) (hne : normText s ≠ [])
    (hk : ∀ c ∈ k, ¬ c.isWhitespace) :
    appendSyncMarker k (appendSyncMarker k s) = appendSyncMarker k s := by
  have hlit : ∀ c ∈ "[SYNC_UID:".data, ¬ c.isWhitespace := by
    intro c hc
    have := List.all_eq_true.mp
      (show "[SYNC_UID:".data.all (fun c => !c.isWhitespace) = true from by decide) c hc
    simpa using this
  have hlit2 : ∀ c ∈ "]".data, ¬ c.isWhitespace := by
    intro c hc
    have := List.all_eq_true.mp
      (show "]".data.all (fun c => !c.isWhitespace) = true from by decide) c hc
    simpa using this
  have hcore_nws : ∀ c ∈ syncMarkerCore k, ¬ c.isWhitespace := by
    intro c hc
    unfold syncMarkerCore at hc
    rcases List.mem_append.mp hc with hc | hc
    · rcases List.mem_append.mp hc with hc | hc
      · exact hlit c hc
      · exact hk c hc
    · exact hlit2 c hc
  have hcore_ne : syncMarkerCore k ≠ [] := by
    unfold syncMarkerCore
    intro h
    have := congrArg List.length h
    simp at this
  by_cases hc : strContains (normText s) (' ' :: syncMarkerCore k) = true
  · have h1 : appendSyncMarker k s = normText s := by
      unfold appendSyncMarker
      rw [if_pos hne, if_pos hc]
    rw [h1]
    unfold appendSyncMarker
    rw [normText_idem, if_pos hne, if_pos hc]
  · have h1 : appendSyncMarker k s = normText s ++ ' ' :: syncMarkerCore k := by
      unfold appendSyncMarker
      rw [if_pos hne, if_neg hc]
    rw [h1]
    have hwords : pyWords (normText s ++ ' ' :: syncMarkerCore k) =
        pyWords s ++ [syncMarkerCore k] := by
      unfold pyWords
      rw [pyWordsAux_append_ws (by decide) (syncMarkerCore k) (normText s) []]
      rw [show pyWordsAux [] (normText s) = pyWords (normText s) from rfl, pyWords_normText]
      rw [pyWordsAux_word hcore_nws]
      simp [hcore_ne]
      rfl
    have hpw_ne : pyWords s ≠ [] := by
      intro h
      apply hne
      unfold normText
      rw [h]
      rfl
    have hnorm : normText (normText s ++ ' ' :: syncMarkerCore k) =
        normText s ++ ' ' :: syncMarkerCore k := by
      change joinSpace (pyWords (normText s ++ ' ' :: syncMarkerCore k)) = _
      rw [hwords, joinSpace_append_singleton _ _ hpw_ne]
      rfl
    have hne2 : normText s ++ ' ' :: syncMarkerCore k ≠ [] := by simp
    have hcont2 : strContains (normText s ++ ' ' :: syncMarkerCore k)
        (' ' :: syncMarkerCore k) = true := by
      have := strContains_append_self (' ' :: syncMarkerCore k) (normText s)
      exact this
    unfold appendSyncMarker
    rw [hnorm, if_pos hne2, if_pos hcont2]

/-- Witness for C7 amended: idempotence at the concrete description
"weekly review" and key "caldav-42". -/
theorem append_sync_marker_idem_witness :
    appendSyncMarker "caldav-42".data (appendSyncMarker "caldav-42".data "weekly review".data) =
      appendSyncMarker "caldav-42".data "weekly review".data :=
  append_sync_marker_idem "weekly review".data "caldav-42".data (by decide) (by decide)

/-! ## Rrule normalization and hash stability -/

theorem sortPyStrs_perm_eq {l1 l2 : List PyStr} (h : l1.Perm l2) :
    sortPyStrs l1 = sortPyStrs l2 := by
  haveI : IsAntisymm PyStr (· ≤ ·) := ⟨fun a b h1 h2 => le_antisymm h1 h2⟩
  unfold sortPyStrs
  apply List.eq_of_perm_of_sorted (r := (· ≤ · : PyStr → PyStr → Prop))
  · exact (List.perm_insertionSort _ l1).trans (h.trans (List.perm_insertionSort _ l2).symm)
  · exact List.sorted_insertionSort _ l1
  · exact List.sorted_insertionSort _ l2

theorem normRrule_perm_invariant (s1 s2 : PyStr)
    (h : (rruleComps s1).Perm (rruleComps s2)) : normRrule s1 = normRrule s2 := by
  by_cases h1 : s1 = []
  · by_cases h2 : s2 = []
    · rw [h1, h2]
    · have hc1 : rruleComps s1 = [] := by rw [h1]; decide
      have hc2 : rruleComps s2 = [] := (hc1 ▸ h).symm.eq_nil
      rw [normRrule, normRrule, if_pos h1, if_neg h2, hc2]
      rfl
  · by_cases h2 : s2 = []
    · have hc2 : rruleComps s2 = [] := by rw [h2]; decide
      have hc1 : rruleComps s1 = [] := (hc2 ▸ h).eq_nil
      rw [normRrule, normRrule, if_neg h1, if_pos h2, hc1]
      rfl
    · rw [normRrule, normRrule, if_neg h1, if_neg h2, sortPyStrs_perm_eq h]

/-- C5: rrule normalization is order-independent (permuted stripped
non-empty ';'-components normalize to the identical string, e.g. the
FREQ=WEEKLY;BYDAY=FR example), and the event hash is a deterministic
function of only stable key, normalized text fields, normalized
rrule/exdate, UTC-ISO start/end and the optional recurrence id joined with
the separator, so two events identical except for rrule component order
and the created / last_modified metadata hash identically. -/
theorem norm_rrule_order_independent_hash_stable :
    (∀ s1 s2 : PyStr, (rruleComps s1).Perm (rruleComps s2) → normRrule s1 = normRrule s2) ∧
    normRrule "FREQ=WEEKLY;BYDAY=FR".data = normRrule "BYDAY=FR;FREQ=WEEKLY".data ∧
    (∀ (md5 : PyStr → PyStr) (e1 e2 : HashEvent) (r1 r2 : PyStr),
      e1.rrule = normRrule r1 → e2.rrule = normRrule r2 →
      (rruleComps r1).Perm (rruleComps r2) →
      e1.stable_key = e2.stable_key → e1.summary = e2.summary →
      e1.description = e2.description → e1.location = e2.location →
      e1.exdate = e2.exdate → e1.start = e2.start → e1.end_ = e2.end_ →
      e1.recurrence_id = e2.recurrence_id →
      generateEventHash md5 e1 = generateEventHash md5 e2) := by
  refine ⟨normRrule_perm_invariant, by decide, ?_⟩
  intro md5 e1 e2 r1 r2 hr1 hr2 hperm hkey hsum hdesc hloc hex hst hend hrec
  unfold generateEventHash generateEventHashString hashFields
  rw [hkey, hsum, hdesc, hloc, hex, hst, hend, hrec,
    hr1, hr2, normRrule_perm_invariant r1 r2 hperm]

/-- Witness for C5: two concrete events differing only in rrule component
order and in created / last_modified metadata hash identically (md5
instantiated with an arbitrary digest function). -/
theorem norm_rrule_order_independent_hash_stable_witness :
    generateEventHash (fun s => s)
      ⟨"u1".data, "u1".data, "Standup".data, "sync notes".data, "Room 1".data,
        normRrule "FREQ=WEEKLY;BYDAY=FR".data, [], .noneVal, .noneVal, none,
        "2024-01-01".data, "2024-02-01".data⟩ =
    generateEventHash (fun s => s)
      ⟨"u1".data, "u1".data, "Standup".data, "sync notes".data, "Room 1".data,
        normRrule "BYDAY=FR;FREQ=WEEKLY".data, [], .noneVal, .noneVal, none,
        "2024-03-03".data, "2024-04-04".data⟩ :=
  norm_rrule_order_independent_hash_stable.2.2 (fun s => s) _ _
    "FREQ=WEEKLY;BYDAY=FR".data "BYDAY=FR;FREQ=WEEKLY".data
    rfl rfl (by decide) rfl rfl rfl rfl rfl rfl rfl rfl

/-! ## Lemmas about state lookup and `detect_changes` -/

theorem stLookup_eq_none_iff (st : StateEvents) (k : PyStr) :
    stLookup st k = none ↔ k ∉ st.map Prod.fst := by
  simp only [stLookup, Option.map_eq_none', List.find?_eq_none, beq_iff_eq, List.mem_map,
    not_exists, not_and, Prod.forall]

theorem stLookup_some_mem {st : StateEvents} {k : PyStr} {ent : StEntry}
    (h : stLookup st k = some ent) : (k, ent) ∈ st := by
  unfold stLookup at h
  rcases Option.map_eq_some'.mp h with ⟨p, hp, hp2⟩
  have hmem := List.mem_of_find?_eq_some hp
  have hpred := List.find?_some hp
  have hk : p.1 = k := by simpa using hpred
  have : p = (k, ent) := by
    cases p
    simp only at hp2 hk
    rw [hk, hp2]
  rwa [this] at hmem

theorem stLookup_of_mem_nodup {st : StateEvents} (hnd : (st.map Prod.fst).Nodup)
    {k : PyStr} {v : StEntry} (h : (k, v) ∈ st) : stLookup st k = some v := by
  induction st with
  | nil => simp at h
  | cons p rest ih =>
    have hnd2 : (p.1 :: rest.map Prod.fst).Nodup := by
      rw [List.map_cons] at hnd
      exact hnd
    have hhead : p.1 ∉ rest.map Prod.fst := (List.nodup_cons.mp hnd2).1
    have htail := (List.nodup_cons.mp hnd2).2
    rcases List.mem_cons.mp h with h | h
    · rw [← h]
      simp [stLookup]
    · have hk : k ∈ rest.map Prod.fst := List.mem_map.mpr ⟨(k, v), h, rfl⟩
      have hne2 : (p.1 == k) = false := by
        rw [beq_eq_false_iff_ne]
        intro hpk
        exact hhead (hpk ▸ hk)
      have ht := ih htail h
      unfold stLookup at ht ⊢
      rw [List.find?_cons, hne2]
      exact ht

theorem countP_keys_le_one {st : StateEvents} (hnd : (st.map Prod.fst).Nodup)
    (k : PyStr) : st.countP (fun p => p.1 == k) ≤ 1 := by
  induction st with
  | nil => simp
  | cons p rest ih =>
    have hnd2 : (p.1 :: rest.map Prod.fst).Nodup := by simpa using hnd
    have hhead := (List.nodup_cons.mp hnd2).1
    have htail := (List.nodup_cons.mp hnd2).2
    rw [List.countP_cons]
    by_cases hpk : (p.1 == k) = true
    · have hk : p.1 = k := by simpa using hpk
      have hz : rest.countP (fun q => q.1 == k) = 0 := by
        rw [List.countP_eq_zero]
        intro q hq hbeq
        have : q.1 = k := by simpa using hbeq
        exact hhead (hk ▸ this ▸ List.mem_map.mpr ⟨q, hq, rfl⟩)
      simp [hpk, hz]
    · simp only [hpk, if_false]
      simpa using ih htail

theorem pyStrContains_iff (l : List PyStr) (k : PyStr) : l.contains k = true ↔ k ∈ l := by
  simp [List.contains]

/-- C1: change detection is exactly key-and-hash based. `added` holds
exactly the current events with unknown key, `modified` exactly the current
events with known key and changed hash, `deleted` exactly one record per
stale prior key with uid and summary from the state entry, an unchanged
event (known key, equal hash) is in none of the three sets, and the
concrete prior {A, B} / current {A, C} scenario yields added={C},
deleted={B}, modified={}. -/
theorem detect_changes_key_hash_based :
    (∀ (current : List SEvent) (st : StateEvents),
      (st.map Prod.fst).Nodup → DetectChangesSpec current st) ∧
    detectChanges
      [⟨"uA".data, "A".data, "Meeting A".data, "hA".data⟩,
       ⟨"uC".data, "C".data, "Meeting C".data, "hC".data⟩]
      [("A".data, ⟨"uA".data, "Meeting A".data, "hA".data, "t0".data⟩),
       ("B".data, ⟨"uB".data, "Meeting B".data, "hB".data, "t0".data⟩)] =
      ([⟨"uC".data, "C".data, "Meeting C".data, "hC".data⟩], [],
       [⟨"uB".data, "B".data, "Meeting B".data⟩]) := by
  constructor
  · intro current st hnd
    have hadd : ∀ e, e ∈ (detectChanges current st).1 ↔
        e ∈ current ∧ stLookup st e.stable_key = none := by
      intro e
      simp only [detectChanges, List.mem_filter, Bool.not_eq_true']
      refine and_congr_right fun _ => ?_
      rw [stLookup_eq_none_iff]
      constructor
      · intro h hmem
        rw [(pyStrContains_iff _ _).mpr hmem] at h
        cases h
      · intro h
        rw [← Bool.not_eq_true]
        intro hc
        exact h ((pyStrContains_iff _ _).mp hc)
    have hmod : ∀ e, e ∈ (detectChanges current st).2.1 ↔
        e ∈ current ∧ ∃ ent, stLookup st e.stable_key = some ent ∧ ent.hash ≠ e.hash := by
      intro e
      simp only [detectChanges, List.mem_filter]
      refine and_congr_right fun _ => ?_
      cases hl : stLookup st e.stable_key with
      | none => simp [hl]
      | some ent =>
        have hmem : e.stable_key ∈ st.map Prod.fst :=
          List.mem_map.mpr ⟨(e.stable_key, ent), stLookup_some_mem hl, rfl⟩
        have hcont : (st.map (fun x => x.1)).contains e.stable_key = true :=
          (pyStrContains_iff _ _).mpr hmem
        simp only [hcont, Bool.true_and, bne_iff_ne, Option.some.injEq]
        constructor
        · intro h
          exact ⟨ent, rfl, h⟩
        · rintro ⟨ent2, h2, hne⟩
          rw [h2]
          exact hne
    have hdelmem : ∀ r, r ∈ (detectChanges current st).2.2 ↔
        ∃ p ∈ st, (¬ p.1 ∈ current.map SEvent.stable_key) ∧
          r = ⟨p.2.uid, p.1, p.2.summary⟩ := by
      intro r
      simp only [detectChanges, List.mem_map, List.mem_filter, Bool.not_eq_true']
      constructor
      · rintro ⟨p, ⟨hp, hc⟩, rfl⟩
        refine ⟨p, hp, ?_, rfl⟩
        intro hmem
        obtain ⟨a, ha, hak⟩ := hmem
        rw [(pyStrContains_iff _ _).mpr (List.mem_map.mpr ⟨a, ha, hak⟩)] at hc
        cases hc
      · rintro ⟨p, hp, hnc, rfl⟩
        refine ⟨p, ⟨hp, ?_⟩, rfl⟩
        rw [← Bool.not_eq_true]
        intro hc
        obtain ⟨a, ha, hak⟩ := List.mem_map.mp ((pyStrContains_iff _ _).mp hc)
        exact hnc ⟨a, ha, hak⟩
    have hdelk : ∀ k, (k ∈ st.map Prod.fst ∧ k ∉ current.map SEvent.stable_key) ↔
        ∃ r ∈ (detectChanges current st).2.2, r.stable_key = k := by
      intro k
      constructor
      · rintro ⟨hk, hnk⟩
        obtain ⟨p, hp, hpk⟩ := List.mem_map.mp hk
        exact ⟨⟨p.2.uid, p.1, p.2.summary⟩,
          (hdelmem _).mpr ⟨p, hp, by rw [hpk]; exact hnk, rfl⟩, hpk⟩
      · rintro ⟨r, hr, rfl⟩
        obtain ⟨p, hp, hnc, rfl⟩ := (hdelmem r).mp hr
        exact ⟨List.mem_map.mpr ⟨p, hp, rfl⟩, hnc⟩
    have hdelfields : ∀ r ∈ (detectChanges current st).2.2,
        ∃ ent, stLookup st r.stable_key = some ent ∧ r.uid = ent.uid ∧
          r.summary = ent.summary := by
      intro r hr
      obtain ⟨p, hp, _, rfl⟩ := (hdelmem r).mp hr
      exact ⟨p.2, stLookup_of_mem_nodup hnd hp, rfl, rfl⟩
    have hcount : ∀ k, (detectChanges current st).2.2.countP (fun r => r.stable_key == k) ≤ 1 := by
      intro k
      have h1 : (detectChanges current st).2.2.countP (fun r => r.stable_key == k) =
          (st.filter (fun p => !(current.map (·.stable_key)).contains p.1)).countP
            (fun p => p.1 == k) := by
        simp only [detectChanges]
        rw [List.countP_map]
        rfl
      rw [h1]
      exact le_trans ((List.filter_sublist st).countP_le _) (countP_keys_le_one hnd k)
    refine ⟨hadd, hmod, hdelk, hdelfields, hcount, ?_⟩
    intro e he ent hl hhash
    refine ⟨?_, ?_, ?_⟩
    · intro hmem
      rw [(hadd e).mp hmem |>.2] at hl
      cases hl
    · intro hmem
      obtain ⟨_, ent2, hl2, hne⟩ := (hmod e).mp hmem
      rw [hl] at hl2
      exact hne (by injection hl2 with h; rw [← h, hhash])
    · intro r hr hk
      obtain ⟨hks, hnk⟩ := (hdelk r.stable_key).mpr ⟨r, hr, rfl⟩
      exact hnk (hk ▸ List.mem_map.mpr ⟨e, he, rfl⟩)
  · decide

/-- Witness for C1: the key-and-hash characterization applied at the
concrete prior {A, B} / current {A, C} scenario (a state with distinct
keys). -/
theorem detect_changes_key_hash_based_witness :
    DetectChangesSpec
      [⟨"uA".data, "A".data, "Meeting A".data, "hA".data⟩,
       ⟨"uC".data, "C".data, "Meeting C".data, "hC".data⟩]
      [("A".data, ⟨"uA".data, "Meeting A".data, "hA".data, "t0".data⟩),
       ("B".data, ⟨"uB".data, "Meeting B".data, "hB".data, "t0".data⟩)] :=
  detect_changes_key_hash_based.1 _ _ (by decide)

/-! ## Aggregation deduplication -/

theorem mem_dedupEventsAux : ∀ (l : List SEvent) (seen : List PyStr) (e : SEvent),
    e ∈ dedupEventsAux seen l → e ∈ l := by
  intro l
  induction l with
  | nil => intro seen e h; simp [dedupEventsAux] at h
  | cons x rest ih =>
    intro seen e h
    by_cases hg : (!x.stable_key.isEmpty && !seen.contains x.stable_key) = true
    · rw [dedupEventsAux, if_pos hg] at h
      rcases List.mem_cons.mp h with h | h
      · exact h ▸ List.mem_cons_self x rest
      · exact List.mem_cons_of_mem x (ih _ e h)
    · rw [dedupEventsAux, if_neg hg] at h
      exact List.mem_cons_of_mem x (ih _ e h)

theorem dedupEventsAux_filter {k : PyStr} (hk : k ≠ []) :
    ∀ (l : List SEvent) (seen : List PyStr),
      (dedupEventsAux seen l).filter (fun e => e.stable_key == k) =
        if seen.contains k then [] else (l.find? (fun e => e.stable_key == k)).toList := by
  intro l
  induction l with
  | nil =>
    intro seen
    by_cases h : seen.contains k <;> simp [dedupEventsAux, h]
  | cons x rest ih =>
    intro seen
    by_cases hxk : x.stable_key = k
    · have hxe : (!x.stable_key.isEmpty) = true := by
        rw [hxk]
        cases k with
        | nil => exact absurd rfl hk
        | cons c t => rfl
      have hfind : (x :: rest).find? (fun e => e.stable_key == k) = some x := by
        rw [List.find?_cons, show (x.stable_key == k) = true from by simpa using hxk]
      by_cases hseen : seen.contains k = true
      · have hcx : seen.contains x.stable_key = true := by rw [hxk]; exact hseen
        have hg : (!x.stable_key.isEmpty && !seen.contains x.stable_key) = false := by
          rw [hcx]
          simp
        rw [dedupEventsAux, if_neg (by rw [hg]; intro hc; cases hc)]
        rw [ih seen, if_pos hseen, if_pos hseen]
      · have hcx : seen.contains x.stable_key = false := by
          rw [hxk]
          simpa using hseen
        have hg : (!x.stable_key.isEmpty && !seen.contains x.stable_key) = true := by
          rw [hxe, hcx]
          rfl
        rw [dedupEventsAux, if_pos hg]
        rw [List.filter_cons_of_pos (by simpa using hxk)]
        rw [ih (x.stable_key :: seen)]
        have hck : (x.stable_key :: seen).contains k = true := by
          have hkx : (k == x.stable_key) = true := by simpa using hxk.symm
          rw [List.contains_cons, hkx]
          rfl
        rw [if_pos hck, if_neg hseen, hfind]
        rfl
    · have hpred : (x.stable_key == k) = false := by simpa using hxk
      have hfind : (x :: rest).find? (fun e => e.stable_key == k) =
          rest.find? (fun e => e.stable_key == k) := by
        rw [List.find?_cons, hpred]
      by_cases hg : (!x.stable_key.isEmpty && !seen.contains x.stable_key) = true
      · rw [dedupEventsAux, if_pos hg]
        rw [List.filter_cons_of_neg (by rw [hpred]; intro hc; cases hc)]
        rw [ih (x.stable_key :: seen)]
        have hpred2 : (k == x.stable_key) = false := by
          rw [beq_eq_false_iff_ne]
          exact fun h => hxk h.symm
        have hsame : (x.stable_key :: seen).contains k = seen.contains k := by
          rw [List.contains_cons, hpred2]
          rfl
        rw [hsame, hfind]
      · rw [dedupEventsAux, if_neg hg, ih seen, hfind]

/-- C6: aggregation deduplication is first-seen-wins. For every non-empty
stable key, the deduplicated list keeps exactly the first event of the
combined list carrying that key (later same-key events are dropped, no
field merging), every kept event comes from the input, and in the concrete
two-source overlap the first-encountered summary survives. -/
theorem dedup_first_seen_wins :
    (∀ events : List SEvent, DedupSpec events) ∧
    (∀ (events : List SEvent) (e : SEvent), e ∈ dedupEvents events → e ∈ events) ∧
    dedupEvents [⟨"u1".data, "K".data, "From CalDAV".data, "h1".data⟩,
                 ⟨"u2".data, "K".data, "From EventKit".data, "h2".data⟩] =
      [⟨"u1".data, "K".data, "From CalDAV".data, "h1".data⟩] := by
  refine ⟨?_, ?_, by decide⟩
  · intro events k hk
    unfold dedupEvents
    rw [dedupEventsAux_filter hk events []]
    rfl
  · intro events e h
    exact mem_dedupEventsAux events [] e h

/-- Witness for C6: the first-seen-wins filter characterization applied at
the concrete two-source overlap with the non-empty key "K". -/
theorem dedup_first_seen_wins_witness :
    (dedupEvents [⟨"u1".data, "K".data, "From CalDAV".data, "h1".data⟩,
                  ⟨"u2".data, "K".data, "From EventKit".data, "h2".data⟩]).filter
        (fun e => e.stable_key == "K".data) =
      ([⟨"u1".data, "K".data, "From CalDAV".data, "h1".data⟩,
        ⟨"u2".data, "K".data, "From EventKit".data, "h2".data⟩].find?
          (fun e => e.stable_key == "K".data)).toList :=
  dedup_first_seen_wins.1 _ "K".data (by decide)

/-! ## The missing destination method and the `sync_to_icloud` precheck -/

/-- C2: `ICloudIntegration` defines no attribute named
`delete_event_by_sync_uid`, so the `required_methods` precheck of
`sync_to_icloud` finds exactly that method missing, and every invocation
of `sync_to_icloud` with such a client — whatever the change sets, the
timestamp, the call outcomes, or the prior state, including the
all-empty batch — returns False with the sync state unchanged and no
destination call attempted. -/
theorem icloud_client_missing_method_always_fails :
    missingMethods icloudIntegrationAttrs = ["delete_event_by_sync_uid".data] ∧
    "delete_event_by_sync_uid".data ∉ icloudIntegrationAttrs ∧
    (∀ (ce : SEvent → Bool) (du ds : PyStr → Bool) (now : PyStr)
      (a m : List SEvent) (d : List DeletedRec) (r : List SEvent) (st : SyncState),
      syncToIcloud ⟨icloudIntegrationAttrs, ce, du, ds⟩ now a m d r st = (false, st, [])) := by
  refine ⟨by decide, by decide, ?_⟩
  intro ce du ds now a m d r st
  have h : missingMethods icloudIntegrationAttrs ≠ [] := by decide
  unfold syncToIcloud
  rw [if_pos h]

/-! ## Legacy sync-state migration -/

/-- C10 counterexample: a persisted state whose events map CONTAINS an
entry lacking "summary" (the second entry) but whose first entry carries
it is returned unchanged — not with the events map cleared as the claim
demands — because `load_sync_state` probes only the first entry. -/
theorem load_sync_state_counterexample :
    (loadSyncState (some ⟨some "T0".data, legacyMixedEvents⟩)).events = legacyMixedEvents ∧
    (∃ p ∈ legacyMixedEvents, p.2.summary = none) ∧
    legacyMixedEvents ≠ [] := by decide

/-- C10 amended: `load_sync_state` clears the events map exactly when the
FIRST entry (in insertion order) of a non-empty events map lacks the
"summary" field — which covers every genuine legacy state, where all
entries lack it; a state whose entries all carry "summary" is returned
with its events map unchanged, and no failure path exists (a missing file
yields the fresh empty state). -/
theorem load_sync_state_first_entry_migration :
    (∀ (st : RawSyncState) (k : PyStr) (e : RawEntry) (rest : List (PyStr × RawEntry)),
      st.events = (k, e) :: rest → e.summary = none →
      (loadSyncState (some st)).events = []) ∧
    (∀ st : RawSyncState, (∀ p ∈ st.events, p.2.summary ≠ none) →
      (loadSyncState (some st)).events = st.events) ∧
    (loadSyncState none).events = [] := by
  refine ⟨?_, ?_, rfl⟩
  · intro st k e rest hev hsum
    simp [loadSyncState, hev, migrateLegacyEvents, hsum]
  · intro st h
    cases hev : st.events with
    | nil => simp [loadSyncState, hev, migrateLegacyEvents]
    | cons p rest =>
      obtain ⟨k, e⟩ := p
      have hne : e.summary ≠ none := h (k, e) (hev ▸ List.mem_cons_self (k, e) rest)
      have hno : e.summary.isNone = false := by
        rw [Bool.eq_false_iff]
        intro hc
        exact hne (Option.isNone_iff_eq_none.mp hc)
      simp [loadSyncState, hev, migrateLegacyEvents, hno]

/-- Witness for C10 amended: a fully legacy state (no entry carries
"summary") is healed to the empty events map, and a fully modern state is
returned unchanged. -/
theorem load_sync_state_first_entry_migration_witness :
    (loadSyncState (some ⟨none, legacyOldEvents⟩)).events = [] ∧
    (loadSyncState (some ⟨some "T0".data, modernEvents⟩)).events = modernEvents :=
  ⟨load_sync_state_first_entry_migration.1 ⟨none, legacyOldEvents⟩
      "k1".data ⟨none, none, some "h1".data, some "t1".data⟩
      [("k2".data, ⟨none, none, some "h2".data, some "t2".data⟩)] rfl rfl,
    load_sync_state_first_entry_migration.2.1 ⟨some "T0".data, modernEvents⟩ (by decide)⟩

/-! ## The TOO_MANY_MISSING safety valve -/

/-- C3: when deletion-override is on, the skip option is on (its default)
and the missing list exceeds half the current source events
(`len(missing) > 0.5 * total`, i.e. `2 * len(missing) > total`),
`detect_icloud_deletions` returns the TOO_MANY_MISSING sentinel,
`sync_calendars` then returns True without calling `sync_to_icloud` — no
destination call, no state change; and in the concrete 10-source /
3-marker scenario (7 missing, 7 > 0.5 x 10) the cycle is skipped. -/
theorem too_many_missing_skips_cycle :
    (∀ (icloudKeys : List PyStr) (caldavEvents : List SEvent) (st : StateEvents),
      2 * (missingInICloud icloudKeys caldavEvents st).length > caldavEvents.length →
      detectICloudDeletions true icloudKeys caldavEvents st = .tooManyMissing) ∧
    (∀ (cl : Client) (now : PyStr) (icloudKeys : List PyStr) (current : List SEvent)
      (st : SyncState),
      detectICloudDeletions true icloudKeys current st.events = .tooManyMissing →
      syncCalendarsDispatch cl now true true icloudKeys current st = (true, st, [])) ∧
    detectICloudDeletions true icloudThreeKeys caldavTen stateTen = .tooManyMissing ∧
    (missingInICloud icloudThreeKeys caldavTen stateTen).length = 7 := by
  refine ⟨?_, ?_, by decide, by decide⟩
  · intro icloudKeys caldavEvents st h
    unfold detectICloudDeletions
    rw [if_pos ⟨by omega, h⟩]
    rfl
  · intro cl now icloudKeys current st h
    unfold syncCalendarsDispatch
    by_cases hcur : current.isEmpty = true
    · rw [if_pos hcur]
    · rw [if_neg hcur, if_pos rfl, h]

/-- Witness for C3: the general safety-valve theorem applied at the
concrete 10-source / 3-marker scenario, and the skip decision applied with
a concrete client. -/
theorem too_many_missing_skips_cycle_witness :
    detectICloudDeletions true icloudThreeKeys caldavTen stateTen =
      DeletionDetectResult.tooManyMissing ∧
    syncCalendarsDispatch ⟨requiredSyncMethods, fun _ => true, fun _ => true, fun _ => true⟩
        "t1".data true true icloudThreeKeys caldavTen ⟨some "t0".data, stateTen⟩ =
      (true, ⟨some "t0".data, stateTen⟩, []) :=
  ⟨too_many_missing_skips_cycle.1 icloudThreeKeys caldavTen stateTen (by decide),
   too_many_missing_skips_cycle.2.1 _ "t1".data icloudThreeKeys caldavTen
     ⟨some "t0".data, stateTen⟩ (by decide)⟩

/-! ## Recovery refreshes only last_sync -/

theorem stUpdateLastSync_lookup_self (st : StateEvents) (k now : PyStr) :
    stLookup (stUpdateLastSync st k now) k =
      (stLookup st k).map (fun ent => { ent with last_sync := now }) := by
  induction st with
  | nil => rfl
  | cons p rest ih =>
    by_cases h : (p.1 == k) = true
    · unfold stUpdateLastSync stLookup
      rw [List.map_cons, if_pos h, List.find?_cons, List.find?_cons, h]
      rfl
    · unfold stUpdateLastSync stLookup
      rw [List.map_cons, if_neg h, List.find?_cons, List.find?_cons,
        show (p.1 == k) = false from by simpa using h]
      exact ih

theorem stUpdateLastSync_lookup_other (st : StateEvents) (k now k' : PyStr)
    (hne : k' ≠ k) : stLookup (stUpdateLastSync st k now) k' = stLookup st k' := by
  induction st with
  | nil => rfl
  | cons p rest ih =>
    by_cases h : (p.1 == k) = true
    · have hpk : p.1 = k := by simpa using h
      have h2 : (p.1 == k') = false := by
        rw [beq_eq_false_iff_ne, hpk]
        exact fun hc => hne hc.symm
      unfold stUpdateLastSync stLookup
      rw [List.map_cons, if_pos h, List.find?_cons, List.find?_cons, h2]
      exact ih
    · unfold stUpdateLastSync stLookup
      rw [List.map_cons, if_neg h, List.find?_cons, List.find?_cons]
      cases hpk : (p.1 == k') with
      | true => rfl
      | false => exact ih

theorem stUpdateLastSync_frame (st : StateEvents) (k now : PyStr) :
    (stUpdateLastSync st k now).map (fun p => (p.1, p.2.uid, p.2.summary, p.2.hash)) =
      st.map (fun p => (p.1, p.2.uid, p.2.summary, p.2.hash)) := by
  induction st with
  | nil => rfl
  | cons p rest ih =>
    unfold stUpdateLastSync at ih ⊢
    by_cases h : (p.1 == k) = true
    · rw [List.map_cons, if_pos h, List.map_cons, List.map_cons, ih]
    · rw [List.map_cons, if_neg h, List.map_cons, List.map_cons, ih]

theorem processRecovery_fold_frame (cl : Client) (now : PyStr) :
    ∀ (l : List SEvent) (acc : SyncAcc),
      ((l.foldl (processRecovery cl now) acc).events).map
          (fun p => (p.1, p.2.uid, p.2.summary, p.2.hash)) =
        acc.events.map (fun p => (p.1, p.2.uid, p.2.summary, p.2.hash)) := by
  intro l
  induction l with
  | nil => intro acc; rfl
  | cons e rest ih =>
    intro acc
    rw [List.foldl_cons, ih]
    unfold processRecovery
    by_cases h : cl.create_event e = true
    · rw [if_pos h]
      exact stUpdateLastSync_frame acc.events e.stable_key now
    · rw [if_neg h]

/-- C9: recovery is a frame-preserving refresh. When a recovery event's
destination create succeeds and its stable key has a state entry, the
recovery step maps that entry to one with the same uid, summary and hash
and the fresh last_sync, leaves every other key's lookup unchanged; and
over a whole recovery batch the key / uid / summary / hash projection of
the state is invariant — the hash is never recomputed or altered. -/
theorem recovery_refreshes_only_last_sync :
    (∀ (cl : Client) (now : PyStr) (acc : SyncAcc) (e : SEvent) (ent : StEntry),
      cl.create_event e = true → stLookup acc.events e.stable_key = some ent →
      stLookup (processRecovery cl now acc e).events e.stable_key =
        some ⟨ent.uid, ent.summary, ent.hash, now⟩ ∧
      (∀ k, k ≠ e.stable_key →
        stLookup (processRecovery cl now acc e).events k = stLookup acc.events k)) ∧
    (∀ (cl : Client) (now : PyStr) (l : List SEvent) (acc : SyncAcc),
      ((l.foldl (processRecovery cl now) acc).events).map
          (fun p => (p.1, p.2.uid, p.2.summary, p.2.hash)) =
        acc.events.map (fun p => (p.1, p.2.uid, p.2.summary, p.2.hash))) := by
  constructor
  · intro cl now acc e ent hcreate hlook
    unfold processRecovery
    rw [if_pos hcreate]
    constructor
    · show stLookup (stUpdateLastSync acc.events e.stable_key now) e.stable_key = _
      rw [stUpdateLastSync_lookup_self, hlook]
      rfl
    · intro k hk
      show stLookup (stUpdateLastSync acc.events e.stable_key now) k = _
      exact stUpdateLastSync_lookup_other acc.events e.stable_key now k hk
  · exact processRecovery_fold_frame

/-- Witness for C9: the per-event frame property at a concrete client,
state and recovery event. -/
theorem recovery_refreshes_only_last_sync_witness :
    stLookup (processRecovery ⟨requiredSyncMethods, fun _ => true, fun _ => true, fun _ => true⟩
        "t9".data
        ⟨[("kA".data, ⟨"uA".data, "SumA".data, "hA".data, "t0".data⟩)], [], 0⟩
        ⟨"uA".data, "kA".data, "SumA".data, "hA".data⟩).events "kA".data =
      some ⟨"uA".data, "SumA".data, "hA".data, "t9".data⟩ ∧
    (∀ k, k ≠ "kA".data →
      stLookup (processRecovery ⟨requiredSyncMethods, fun _ => true, fun _ => true, fun _ => true⟩
          "t9".data
          ⟨[("kA".data, ⟨"uA".data, "SumA".data, "hA".data, "t0".data⟩)], [], 0⟩
          ⟨"uA".data, "kA".data, "SumA".data, "hA".data⟩).events k =
        stLookup [("kA".data, ⟨"uA".data, "SumA".data, "hA".data, "t0".data⟩)] k) :=
  recovery_refreshes_only_last_sync.1
    ⟨requiredSyncMethods, fun _ => true, fun _ => true, fun _ => true⟩ "t9".data
    ⟨[("kA".data, ⟨"uA".data, "SumA".data, "hA".data, "t0".data⟩)], [], 0⟩
    ⟨"uA".data, "kA".data, "SumA".data, "hA".data⟩
    ⟨"uA".data, "SumA".data, "hA".data, "t0".data⟩ rfl (by decide)

/-! ## State-entry lookup under insert and erase -/

theorem find?_append_none {α : Type} (p : α → Bool) (l1 l2 : List α)
    (h : l1.find? p = none) : (l1 ++ l2).find? p = l2.find? p := by
  induction l1 with
  | nil => rfl
  | cons x t ih =>
    rw [List.find?_cons] at h
    cases hx : p x with
    | true => rw [hx] at h; cases h
    | false =>
      rw [hx] at h
      rw [List.cons_append, List.find?_cons, hx]
      exact ih h

theorem lookup_map_update (st : StateEvents) (k : PyStr) (v : StEntry) :
    ∀ _ : st.any (fun p => p.1 == k) = true,
      stLookup (st.map (fun p => if p.1 == k then (k, v) else p)) k = some v := by
  induction st with
  | nil => intro hany; cases hany
  | cons p rest ih =>
    intro hany
    rw [List.map_cons]
    by_cases h : (p.1 == k) = true
    · unfold stLookup
      rw [if_pos h, List.find?_cons,
        show (((k, v) : PyStr × StEntry).1 == k) = true from by simp]
      rfl
    · unfold stLookup
      rw [if_neg h, List.find?_cons, show (p.1 == k) = false from by simpa using h]
      apply ih
      rw [List.any_cons] at hany
      simpa [h] using hany

theorem lookup_map_update_other (st : StateEvents) (k : PyStr) (v : StEntry)
    (k' : PyStr) (hne : k' ≠ k) :
    stLookup (st.map (fun p => if p.1 == k then (k, v) else p)) k' = stLookup st k' := by
  induction st with
  | nil => rfl
  | cons p rest ih =>
    rw [List.map_cons]
    by_cases h : (p.1 == k) = true
    · have hpk : p.1 = k := by simpa using h
      have h2 : (p.1 == k') = false := by
        rw [beq_eq_false_iff_ne, hpk]
        exact fun hc => hne hc.symm
      have h3 : (((k, v) : PyStr × StEntry).1 == k') = false := by
        rw [beq_eq_false_iff_ne]
        exact fun hc => hne hc.symm
      unfold stLookup
      rw [if_pos h, List.find?_cons, List.find?_cons, h2, h3]
      exact ih
    · unfold stLookup
      rw [if_neg h, List.find?_cons, List.find?_cons]
      cases hpk : (p.1 == k') with
      | true => rfl
      | false => exact ih

theorem stLookup_append_single_other (st : StateEvents) (k : PyStr) (v : StEntry)
    (k' : PyStr) (hne : k' ≠ k) : stLookup (st ++ [(k, v)]) k' = stLookup st k' := by
  induction st with
  | nil =>
    unfold stLookup
    rw [List.nil_append, List.find?_cons,
      show (((k, v) : PyStr × StEntry).1 == k') = false from by
        rw [beq_eq_false_iff_ne]; exact fun hc => hne hc.symm]
  | cons p rest ih =>
    unfold stLookup
    rw [List.cons_append, List.find?_cons, List.find?_cons]
    cases hp : (p.1 == k') with
    | true => rfl
    | false => exact ih

theorem stInsert_lookup_self (st : StateEvents) (k : PyStr) (v : StEntry) :
    stLookup (stInsert st k v) k = some v := by
  unfold stInsert
  by_cases hany : st.any (fun p => p.1 == k) = true
  · rw [if_pos hany]
    exact lookup_map_update st k v hany
  · rw [if_neg hany]
    have hfind : st.find? (fun p => p.1 == k) = none := by
      rw [List.find?_eq_none]
      intro p hp hpk
      exact hany (List.any_eq_true.mpr ⟨p, hp, hpk⟩)
    unfold stLookup
    rw [find?_append_none _ st _ hfind, List.find?_cons,
      show (((k, v) : PyStr × StEntry).1 == k) = true from by simp]
    rfl

theorem stInsert_lookup_other (st : StateEvents) (k : PyStr) (v : StEntry)
    (k' : PyStr) (hne : k' ≠ k) : stLookup (stInsert st k v) k' = stLookup st k' := by
  unfold stInsert
  by_cases hany : st.any (fun p => p.1 == k) = true
  · rw [if_pos hany]
    exact lookup_map_update_other st k v k' hne
  · rw [if_neg hany]
    exact stLookup_append_single_other st k v k' hne

theorem stErase_lookup_self (st : StateEvents) (k : PyStr) :
    stLookup (stErase st k) k = none := by
  have hfind : (stErase st k).find? (fun p => p.1 == k) = none := by
    rw [List.find?_eq_none]
    intro p hp hpk
    have h2 := (List.mem_filter.mp hp).2
    rw [hpk] at h2
    cases h2
  unfold stLookup
  rw [hfind]
  rfl

theorem stErase_lookup_other (st : StateEvents) (k k' : PyStr) (hne : k' ≠ k) :
    stLookup (stErase st k) k' = stLookup st k' := by
  induction st with
  | nil => rfl
  | cons p rest ih =>
    unfold stErase at ih ⊢
    by_cases h : (p.1 == k) = true
    · have hpk : p.1 = k := by simpa using h
      have h2 : (p.1 == k') = false := by
        rw [beq_eq_false_iff_ne, hpk]
        exact fun hc => hne hc.symm
      rw [List.filter_cons_of_neg (by rw [h]; exact fun hc => by cases hc)]
      unfold stLookup
      rw [List.find?_cons, h2]
      exact ih
    · rw [List.filter_cons_of_pos (by
        rw [show (p.1 == k) = false from by simpa using h]
        rfl)]
      unfold stLookup
      rw [List.find?_cons, List.find?_cons]
      cases hp : (p.1 == k') with
      | true => rfl
      | false => exact ih

/-! ## Call-log monotonicity of the `sync_to_icloud` loops -/

theorem foldl_calls_sub {β : Type} (step : SyncAcc → β → SyncAcc)
    (hmono : ∀ acc x c, c ∈ acc.calls → c ∈ (step acc x).calls) :
    ∀ (l : List β) (acc : SyncAcc) (c : DestCall),
      c ∈ acc.calls → c ∈ (l.foldl step acc).calls := by
  intro l
  induction l with
  | nil => intro acc c hc; exact hc
  | cons x t ih =>
    intro acc c hc
    rw [List.foldl_cons]
    exact ih (step acc x) c (hmono acc x c hc)

theorem foldl_calls_self {β : Type} (step : SyncAcc → β → SyncAcc)
    (hmono : ∀ acc x c, c ∈ acc.calls → c ∈ (step acc x).calls)
    (f : β → DestCall) (hself : ∀ acc x, f x ∈ (step acc x).calls) :
    ∀ (l : List β) (acc : SyncAcc) (x : β), x ∈ l → f x ∈ (l.foldl step acc).calls := by
  intro l
  induction l with
  | nil => intro acc x hx; cases hx
  | cons y t ih =>
    intro acc x hx
    rw [List.foldl_cons]
    rcases List.mem_cons.mp hx with hx | hx
    · exact foldl_calls_sub step hmono t (step acc y) (f x)
        (hx ▸ hself acc y)
    · exact ih (step acc y) x hx

theorem processAdded_calls_mono (cl : Client) (now : PyStr) :
    ∀ (acc : SyncAcc) (x : SEvent) (c : DestCall),
      c ∈ acc.calls → c ∈ (processAdded cl now acc x).calls := by
  intro acc x c hc
  unfold processAdded
  split
  · exact List.mem_append_left _ hc
  · exact List.mem_append_left _ hc

theorem processAdded_calls_self (cl : Client) (now : PyStr) :
    ∀ (acc : SyncAcc) (x : SEvent),
      DestCall.createEv x.stable_key ∈ (processAdded cl now acc x).calls := by
  intro acc x
  unfold processAdded
  split
  · exact List.mem_append_right _ (List.mem_singleton.mpr rfl)
  · exact List.mem_append_right _ (List.mem_singleton.mpr rfl)

theorem processModified_calls_eq (cl : Client) (now : PyStr) (acc : SyncAcc) (x : SEvent) :
    (processModified cl now acc x).calls =
      (if cl.delete_event_by_sync_uid x.stable_key
        then acc.calls ++ [DestCall.deleteByUid x.stable_key]
        else acc.calls ++ [DestCall.deleteByUid x.stable_key] ++
          [DestCall.deleteBySummary x.summary]) ++
      [DestCall.createEv x.stable_key] := by
  unfold processModified
  split <;> rfl

theorem processModified_calls_mono (cl : Client) (now : PyStr) :
    ∀ (acc : SyncAcc) (x : SEvent) (c : DestCall),
      c ∈ acc.calls → c ∈ (processModified cl now acc x).calls := by
  intro acc x c hc
  rw [processModified_calls_eq]
  by_cases hd : cl.delete_event_by_sync_uid x.stable_key = true
  · rw [if_pos hd]
    exact List.mem_append_left _ (List.mem_append_left _ hc)
  · rw [if_neg hd]
    exact List.mem_append_left _ (List.mem_append_left _ (List.mem_append_left _ hc))

theorem processModified_calls_self (cl : Client) (now : PyStr) :
    ∀ (acc : SyncAcc) (x : SEvent),
      DestCall.createEv x.stable_key ∈ (processModified cl now acc x).calls := by
  intro acc x
  rw [processModified_calls_eq]
  exact List.mem_append_right _ (List.mem_singleton.mpr rfl)

theorem processDeleted_calls_mono (cl : Client) :
    ∀ (acc : SyncAcc) (x : DeletedRec) (c : DestCall),
      c ∈ acc.calls → c ∈ (processDeleted cl acc x).calls := by
  intro acc x c hc
  unfold processDeleted
  split
  · exact List.mem_append_left _ hc
  · split
    · exact List.mem_append_left _ hc
    · exact List.mem_append_left _ hc

theorem processDeleted_calls_self (cl : Client) :
    ∀ (acc : SyncAcc) (x : DeletedRec),
      DestCall.deleteByUid x.stable_key ∈ (processDeleted cl acc x).calls := by
  intro acc x
  unfold processDeleted
  split
  · exact List.mem_append_right _ (List.mem_singleton.mpr rfl)
  · split
    · exact List.mem_append_right _ (List.mem_cons_self _ _)
    · exact List.mem_append_right _ (List.mem_cons_self _ _)

theorem processRecovery_calls_mono (cl : Client) (now : PyStr) :
    ∀ (acc : SyncAcc) (x : SEvent) (c : DestCall),
      c ∈ acc.calls → c ∈ (processRecovery cl now acc x).calls := by
  intro acc x c hc
  unfold processRecovery
  split
  · exact List.mem_append_left _ hc
  · exact List.mem_append_left _ hc

theorem processRecovery_calls_self (cl : Client) (now : PyStr) :
    ∀ (acc : SyncAcc) (x : SEvent),
      DestCall.createEv x.stable_key ∈ (processRecovery cl now acc x).calls := by
  intro acc x
  unfold processRecovery
  split
  · exact List.mem_append_right _ (List.mem_singleton.mpr rfl)
  · exact List.mem_append_right _ (List.mem_singleton.mpr rfl)

/-- C8: sync-state mutation is tied to confirmed operation success and
failures are non-fatal. A failed create leaves the state (and success
count) of the added / modified loop bodies unchanged; a deleted record
whose marker delete and title fallback both fail keeps its entry; a
successful create installs exactly the `{uid, summary, hash, now}` entry
at that key and touches no other key; a successful marker delete removes
exactly that key; and whenever the precheck passes and the batch is
non-empty, every event of every set still gets its destination call —
processing continues past failures instead of aborting. -/
theorem sync_state_tied_to_success :
    (∀ (cl : Client) (now : PyStr) (acc : SyncAcc) (e : SEvent),
      cl.create_event e = false →
      (processAdded cl now acc e).events = acc.events ∧
      (processAdded cl now acc e).successCount = acc.successCount) ∧
    (∀ (cl : Client) (now : PyStr) (acc : SyncAcc) (e : SEvent),
      cl.create_event e = false →
      (processModified cl now acc e).events = acc.events ∧
      (processModified cl now acc e).successCount = acc.successCount) ∧
    (∀ (cl : Client) (acc : SyncAcc) (d : DeletedRec),
      cl.delete_event_by_sync_uid d.stable_key = false →
      cl.delete_event_by_summary d.summary = false →
      (processDeleted cl acc d).events = acc.events ∧
      (processDeleted cl acc d).successCount = acc.successCount) ∧
    (∀ (cl : Client) (now : PyStr) (acc : SyncAcc) (e : SEvent),
      cl.create_event e = true →
      stLookup (processAdded cl now acc e).events e.stable_key =
        some ⟨e.uid, e.summary, e.hash, now⟩ ∧
      (∀ k, k ≠ e.stable_key →
        stLookup (processAdded cl now acc e).events k = stLookup acc.events k)) ∧
    (∀ (cl : Client) (acc : SyncAcc) (d : DeletedRec),
      cl.delete_event_by_sync_uid d.stable_key = true →
      stLookup (processDeleted cl acc d).events d.stable_key = none ∧
      (∀ k, k ≠ d.stable_key →
        stLookup (processDeleted cl acc d).events k = stLookup acc.events k)) ∧
    (∀ (cl : Client) (now : PyStr) (a m : List SEvent) (d : List DeletedRec)
      (r : List SEvent) (st : SyncState),
      missingMethods cl.attrs = [] →
      0 < a.length + m.length + d.length + r.length →
      (∀ e ∈ a, DestCall.createEv e.stable_key ∈ (syncToIcloud cl now a m d r st).2.2) ∧
      (∀ e ∈ m, DestCall.createEv e.stable_key ∈ (syncToIcloud cl now a m d r st).2.2) ∧
      (∀ x ∈ d, DestCall.deleteByUid x.stable_key ∈ (syncToIcloud cl now a m d r st).2.2) ∧
      (∀ e ∈ r, DestCall.createEv e.stable_key ∈ (syncToIcloud cl now a m d r st).2.2)) := by
  refine ⟨?_, ?_, ?_, ?_, ?_, ?_⟩
  · intro cl now acc e h
    unfold processAdded
    rw [if_neg (by rw [h]; exact Bool.false_ne_true)]
    exact ⟨rfl, rfl⟩
  · intro cl now acc e h
    constructor <;> simp [processModified, h]
  · intro cl acc d h1 h2
    unfold processDeleted
    rw [if_neg (by rw [h1]; exact Bool.false_ne_true),
      if_neg (by rw [h2]; exact Bool.false_ne_true)]
    exact ⟨rfl, rfl⟩
  · intro cl now acc e h
    unfold processAdded
    rw [if_pos h]
    exact ⟨stInsert_lookup_self acc.events e.stable_key _,
      fun k hk => stInsert_lookup_other acc.events e.stable_key _ k hk⟩
  · intro cl acc d h
    unfold processDeleted
    rw [if_pos h]
    exact ⟨stErase_lookup_self acc.events d.stable_key,
      fun k hk => stErase_lookup_other acc.events d.stable_key k hk⟩
  · intro cl now a m d r st hmiss htot
    have hres : (syncToIcloud cl now a m d r st).2.2 =
        (r.foldl (processRecovery cl now)
          (d.foldl (processDeleted cl)
            (m.foldl (processModified cl now)
              (a.foldl (processAdded cl now) ⟨st.events, [], 0⟩)))).calls := by
      unfold syncToIcloud
      rw [if_neg (fun hc => hc hmiss), if_neg (by omega)]
    refine ⟨?_, ?_, ?_, ?_⟩
    · intro e he
      rw [hres]
      exact foldl_calls_sub _ (processRecovery_calls_mono cl now) r _ _
        (foldl_calls_sub _ (processDeleted_calls_mono cl) d _ _
          (foldl_calls_sub _ (processModified_calls_mono cl now) m _ _
            (foldl_calls_self _ (processAdded_calls_mono cl now)
              (fun e => DestCall.createEv e.stable_key)
              (processAdded_calls_self cl now) a _ e he)))
    · intro e he
      rw [hres]
      exact foldl_calls_sub _ (processRecovery_calls_mono cl now) r _ _
        (foldl_calls_sub _ (processDeleted_calls_mono cl) d _ _
          (foldl_calls_self _ (processModified_calls_mono cl now)
            (fun e => DestCall.createEv e.stable_key)
            (processModified_calls_self cl now) m _ e he))
    · intro x hx
      rw [hres]
      exact foldl_calls_sub _ (processRecovery_calls_mono cl now) r _ _
        (foldl_calls_self _ (processDeleted_calls_mono cl)
          (fun x => DestCall.deleteByUid x.stable_key)
          (processDeleted_calls_self cl) d _ x hx)
    · intro e he
      rw [hres]
      exact foldl_calls_self _ (processRecovery_calls_mono cl now)
        (fun e => DestCall.createEv e.stable_key)
        (processRecovery_calls_self cl now) r _ e he

/-- Witness for C8: with a client whose create fails, a concrete added
event leaves the concrete state untouched; with an all-succeeding client,
a concrete added event's entry is installed; and in a concrete one-event
batch the create call is attempted. -/
theorem sync_state_tied_to_success_witness :
    (processAdded ⟨requiredSyncMethods, fun _ => false, fun _ => false, fun _ => false⟩
        "t1".data ⟨[("kX".data, ⟨"uX".data, "SumX".data, "hX".data, "t0".data⟩)], [], 0⟩
        ⟨"uN".data, "kN".data, "SumN".data, "hN".data⟩).events =
      [("kX".data, ⟨"uX".data, "SumX".data, "hX".data, "t0".data⟩)] ∧
    stLookup (processAdded ⟨requiredSyncMethods, fun _ => true, fun _ => true, fun _ => true⟩
        "t1".data ⟨[("kX".data, ⟨"uX".data, "SumX".data, "hX".data, "t0".data⟩)], [], 0⟩
        ⟨"uN".data, "kN".data, "SumN".data, "hN".data⟩).events "kN".data =
      some ⟨"uN".data, "SumN".data, "hN".data, "t1".data⟩ ∧
    DestCall.createEv "kN".data ∈
      (syncToIcloud ⟨requiredSyncMethods, fun _ => true, fun _ => true, fun _ => true⟩
        "t1".data [⟨"uN".data, "kN".data, "SumN".data, "hN".data⟩] [] [] []
        ⟨none, []⟩).2.2 :=
  ⟨(sync_state_tied_to_success.1 _ "t1".data _ _ rfl).1,
   (sync_state_tied_to_success.2.2.2.1 _ "t1".data _ _ rfl).1,
   (sync_state_tied_to_success.2.2.2.2.2 _ "t1".data
       [⟨"uN".data, "kN".data, "SumN".data, "hN".data⟩] [] [] [] ⟨none, []⟩
       (by decide) (by decide)).1
     ⟨"uN".data, "kN".data, "SumN".data, "hN".data⟩ (List.mem_singleton.mpr rfl)⟩
